import Mathlib

/-!
Verification of the passline credential vault core: a shallow embedding of
`pkg/crypt/crypt.go` and `pkg/core/core.go`, with the storage interface
(not part of the analysed sources) modelled from the specification.

Go strings are byte sequences and are embedded as `List Nat` (each element a
byte value). External cryptographic primitives used by the code
(`golang.org/x/crypto/pbkdf2` and AES from `crypto/aes`) are parameters of the
development, bundled in `CryptoPrims`; the code written in this repository
(nonce handling, base64 encoding, blob layout, slicing, error handling,
CRUD orchestration) is embedded faithfully, including its panics.
-/

/-- Error kinds surfaced by the embedded Go code. -/
inductive GoError where
  | notFound
  | outOfRange
  | invalidKeySize
  | authenticationFailed
  | corruptInput
deriving DecidableEq, Repr

/-- Outcome of a Go computation: a returned value, a returned error, or a
runtime panic (process crash). -/
inductive Res (α : Type) where
  | ok : α → Res α
  | err : GoError → Res α
  | panicked : String → Res α
deriving DecidableEq, Repr

/-- Byte sequence of a string literal (Go strings are byte slices). -/
def strBytes (s : String) : List Nat :=
  s.data.map Char.toNat

/-! ## base64 URL encoding (`encoding/base64` URLEncoding, with padding)

The repository converts the AEAD blob to text with
`base64.URLEncoding.EncodeToString` and back with
`base64.URLEncoding.DecodeString`.  The decoder is embedded with Go's
behaviour on corrupt input: it returns the bytes decoded from the quantums
before the error together with the error. -/

/-- Alphabet of base64 URL encoding. -/
def b64Alphabet : List Nat :=
  strBytes "ABCDEFGHIJKLMNOPQRSTUVWXYZabcdefghijklmnopqrstuvwxyz0123456789-_"

/-- Index of a byte in the alphabet, scanning from position `i`. -/
def b64ValAux : List Nat → Nat → Nat → Option Nat
  | [], _, _ => none
  | a :: rest, c, i => if a = c then some i else b64ValAux rest c (i + 1)

/-- Value of one base64 character, `none` for a byte outside the alphabet. -/
def b64Val (c : Nat) : Option Nat :=
  b64ValAux b64Alphabet c 0

/-- Character encoding a 6-bit value. -/
def b64Chr (x : Nat) : Nat :=
  b64Alphabet.getD x 0

/-- Padding character of base64 (the byte of the equals sign). -/
def b64Pad : Nat := 61

/-- Base64 URL encoding of a byte sequence, three input bytes to four output
characters, padded with the equals sign. -/
def b64Encode : List Nat → List Nat
  | [] => []
  | [b0] => [b64Chr (b0 / 4), b64Chr (b0 % 4 * 16), b64Pad, b64Pad]
  | [b0, b1] => [b64Chr (b0 / 4), b64Chr (b0 % 4 * 16 + b1 / 16), b64Chr (b1 % 16 * 4), b64Pad]
  | b0 :: b1 :: b2 :: rest =>
      b64Chr (b0 / 4) :: b64Chr (b0 % 4 * 16 + b1 / 16) ::
      b64Chr (b1 % 16 * 4 + b2 / 64) :: b64Chr (b2 % 64) :: b64Encode rest

/-- Base64 URL decoding with Go semantics: processes four-character quantums,
and on corrupt input returns the bytes decoded before the error together with
the error (the caller in `crypt.go` discards the error). -/
def b64DecodeGo : List Nat → List Nat × Option GoError
  | [] => ([], none)
  | c0 :: c1 :: c2 :: c3 :: rest =>
      match b64Val c0, b64Val c1 with
      | some v0, some v1 =>
        if c2 = b64Pad ∧ c3 = b64Pad then
          ([v0 * 4 + v1 / 16], if rest = [] then none else some GoError.corruptInput)
        else if c3 = b64Pad then
          match b64Val c2 with
          | some v2 =>
              ([v0 * 4 + v1 / 16, v1 % 16 * 16 + v2 / 4],
               if rest = [] then none else some GoError.corruptInput)
          | none => ([], some GoError.corruptInput)
        else
          match b64Val c2, b64Val c3 with
          | some v2, some v3 =>
              let r := b64DecodeGo rest
              ((v0 * 4 + v1 / 16) :: (v1 % 16 * 16 + v2 / 4) :: (v2 % 4 * 64 + v3) :: r.1, r.2)
          | _, _ => ([], some GoError.corruptInput)
      | _, _ => ([], some GoError.corruptInput)
  | _ => ([], some GoError.corruptInput)

/-! ## External cryptographic primitives

The repository calls `pbkdf2.Key` (golang.org/x/crypto) and `aes.NewCipher`
(crypto/aes).  Those libraries are outside the analysed sources; the
development is parameterised by them.  `aesEnc key block` is the keyed AES
block function; `pbkdf2Sha1 password salt iterations keyLen` is the key
derivation function.  The GCM mode built on top of the block function
(counter-mode keystream, GHASH tag) follows the standard construction of
`cipher.NewGCM`. -/

structure CryptoPrims where
  pbkdf2Sha1 : List Nat → List Nat → Nat → Nat → List Nat
  aesEnc : List Nat → List Nat → List Nat

/-- Salt constant of `GenerateKey` in `crypt.go`. -/
def theSalt : List Nat := strBytes "This is the salt"

/-- Embedding of `crypt.GenerateKey`: pbkdf2 with the fixed salt, 4096
iterations and a 32-byte key. -/
def GenerateKey (P : CryptoPrims) (password : List Nat) : List Nat :=
  P.pbkdf2Sha1 password theSalt 4096 32

/-- Standard GCM nonce length used by `cipher.NewGCM`. -/
def NonceSize : Nat := 12

/-- GCM authentication tag length. -/
def TagSize : Nat := 16

/-- Bytewise xor of two byte sequences (counter-mode combination). -/
def xorBytes (a b : List Nat) : List Nat :=
  List.zipWith (fun x y => x ^^^ y) a b

/-- Big-endian 4-byte encoding of a counter value. -/
def be32 (n : Nat) : List Nat :=
  [n / 2 ^ 24 % 256, n / 2 ^ 16 % 256, n / 2 ^ 8 % 256, n % 256]

/-- Counter-mode keystream of GCM: the blocks are the encryptions of the
nonce extended with the counter values 2, 3, …, truncated to `n` bytes. -/
def keystream (E : List Nat → List Nat) (nonce : List Nat) (n : Nat) : List Nat :=
  (((List.range ((n + 15) / 16)).flatMap (fun i => E (nonce ++ be32 (i + 2))))).take n

/-- Big-endian value of a byte sequence. -/
def bytesToNat (l : List Nat) : Nat :=
  l.foldl (fun acc b => acc * 256 + b) 0

/-- Big-endian 16-byte encoding of a 128-bit value. -/
def natToBytes16 (n : Nat) : List Nat :=
  (List.range 16).map (fun i => n / 256 ^ (15 - i) % 256)

/-- One doubling step in GF(2^128), reduced by the GCM polynomial. -/
def gfMulStep (x : Nat) : Nat :=
  if x < 2 ^ 127 then x * 2 else (x * 2 % 2 ^ 128) ^^^ 135

/-- Iterated schoolbook carry-less multiplication in GF(2^128). -/
def gfMulAux : Nat → Nat → Nat → Nat → Nat
  | 0, _, _, acc => acc
  | k + 1, x, y, acc =>
      gfMulAux k (gfMulStep x) (y / 2) (if y % 2 = 1 then acc ^^^ x else acc)

/-- Multiplication in GF(2^128). -/
def gfMul (x y : Nat) : Nat := gfMulAux 128 x y 0

/-- Split a byte sequence into 16-byte blocks. -/
def chunks16 (l : List Nat) : List (List Nat) :=
  (List.range ((l.length + 15) / 16)).map (fun i => (l.drop (16 * i)).take 16)

/-- Zero padding of the last GHASH block. -/
def pad16 (l : List Nat) : List Nat :=
  l ++ List.replicate ((16 - l.length % 16) % 16) 0

/-- GHASH folding of a block sequence with hash key `h`. -/
def ghashFold (h : Nat) (blocks : List (List Nat)) : Nat :=
  blocks.foldl (fun y blk => gfMul (y ^^^ bytesToNat blk) h) 0

/-- GCM authentication tag of a ciphertext: GHASH over the padded ciphertext
and the length block, keyed by the encryption of the zero block, masked with
the encryption of the nonce extended with counter value 1. -/
def gcmTag (E : List Nat → List Nat) (nonce ct : List Nat) : List Nat :=
  let h := bytesToNat (E (List.replicate 16 0))
  let s := ghashFold h (chunks16 (pad16 ct) ++ [natToBytes16 (8 * ct.length)])
  xorBytes (natToBytes16 s) (E (nonce ++ be32 1))

/-- Check of `aes.NewCipher`: it errors unless the key has 16, 24 or 32
bytes. -/
def validAesKeySize (key : List Nat) : Bool :=
  key.length == 16 || key.length == 24 || key.length == 32

/-- GCM opening (`gcm.Open`): fails if the data cannot contain a tag, splits
the trailing tag, recomputes it over the ciphertext and compares, then
decrypts the counter-mode ciphertext. -/
def gcmOpen (E : List Nat → List Nat) (nonce data : List Nat) : Option (List Nat) :=
  if data.length < TagSize then none
  else
    let ct := data.take (data.length - TagSize)
    let tag := data.drop (data.length - TagSize)
    if gcmTag E nonce ct = tag then some (xorBytes ct (keystream E nonce ct.length))
    else none

/-- Embedding of `crypt.AesGcmEncrypt`.  The random nonce drawn from
`crypto/rand` is passed explicitly.  The function derives the key, seals
`nonce ++ ciphertext ++ tag` and returns its base64 URL encoding. -/
def AesGcmEncrypt (P : CryptoPrims) (password text nonce : List Nat) : Res (List Nat) :=
  let key := GenerateKey P password
  if validAesKeySize key = false then Res.err GoError.invalidKeySize
  else if decide (nonce.length ≠ NonceSize) then
    Res.panicked "crypto/cipher: incorrect nonce length given to GCM"
  else
    let E := P.aesEnc key
    let ct := xorBytes text (keystream E nonce text.length)
    Res.ok (b64Encode (nonce ++ ct ++ gcmTag E nonce ct))

/-- Embedding of `crypt.AesGcmDecrypt`.  As in the source, the base64 decode
error is discarded, and the nonce is sliced off without a length check: on a
decoded blob shorter than the nonce the Go code panics with a slice bounds
error. -/
def AesGcmDecrypt (P : CryptoPrims) (password cryptoText : List Nat) : Res (List Nat) :=
  let key := GenerateKey P password
  let decoded := (b64DecodeGo cryptoText).1
  if validAesKeySize key = false then Res.err GoError.invalidKeySize
  else if decoded.length < NonceSize then
    Res.panicked "runtime error: slice bounds out of range"
  else
    let nonce := decoded.take NonceSize
    let rest := decoded.drop NonceSize
    match gcmOpen (P.aesEnc key) nonce rest with
    | none => Res.err GoError.authenticationFailed
    | some pt => Res.ok pt

/-- Instantiation of the external primitives used by concrete witnesses: the
key derivation returns a zero key of the requested length and the block
function returns the zero block. -/
def trivPrims : CryptoPrims :=
  CryptoPrims.mk (fun _ _ _ n => List.replicate n 0) (fun _ _ => List.replicate 16 0)

/-- Flip of one bit (bit `k` of the byte at position `i`) of a byte string. -/
def flipBit (l : List Nat) (i k : Nat) : List Nat :=
  l.set i (l.getD i 0 ^^^ 2 ^ k)

/-! ## Vault data model and storage interface

The storage package (`pkg/storage`) is not among the analysed sources; its
operations are modelled from the specification (section 4.4): an ordered
collection of items with unique names, each holding an ordered list of
credentials. -/

/-- Credential of the storage package: a username and an encrypted password
blob. -/
structure Credential where
  username : List Nat
  password : List Nat
deriving DecidableEq, Repr

/-- Item of the storage package: a unique name and its credentials. -/
structure Item where
  name : List Nat
  credentials : List Credential
deriving DecidableEq, Repr

/-- Modelled from the spec: `storage.GetByIndex` returns the item at the
given position of the ordered collection, or an OutOfRange error (`none`). -/
def getByIndexStore (v : List Item) (i : Nat) : Option Item :=
  v[i]?

/-- Modelled from the spec: `storage.GetByName` returns the item with the
given (unique) name, or a NotFound error (`none`). -/
def getByNameStore (v : List Item) (name : List Nat) : Option Item :=
  v.find? (fun it => it.name == name)

/-- Modelled from the spec: `item.GetCredentialByUsername` returns the
credential with the given username inside the item, or a NotFound error
(`none`). -/
def GetCredentialByUsername (item : Item) (username : List Nat) : Option Credential :=
  item.credentials.find? (fun c => c.username == username)

/-- Modelled from the spec: `storage.AddItem` appends a new item to the
ordered collection (stable insertion order). -/
def addItemStore (v : List Item) (item : Item) : List Item :=
  v ++ [item]

/-- Modelled from the spec: `storage.AddCredential` appends a credential to
the item with the given name. -/
def addCredentialStore : List Item → List Nat → Credential → List Item
  | [], _, _ => []
  | it :: rest, name, c =>
      if it.name = name then Item.mk it.name (it.credentials ++ [c]) :: rest
      else it :: addCredentialStore rest name c

/-- Modelled from the spec: `storage.UpdateItem` replaces the stored item
bearing the same (unique) name. -/
def updateItemStore : List Item → Item → List Item
  | [], _ => []
  | it :: rest, item =>
      if it.name = item.name then item :: rest
      else it :: updateItemStore rest item

/-- Modelled from the spec: `storage.DeleteItem` removes the stored item
bearing the same (unique) name. -/
def deleteItemStore : List Item → Item → List Item
  | [], _ => []
  | it :: rest, item =>
      if it.name = item.name then rest else it :: deleteItemStore rest item

/-- Removal of the first credential equal to the given one. -/
def removeFirstCredential : List Credential → Credential → List Credential
  | [], _ => []
  | c :: rest, target => if c = target then rest else c :: removeFirstCredential rest target

/-- Modelled from the spec: `storage.DeleteCredential` removes the matching
credential from the item and persists the updated item. -/
def deleteCredentialStore (v : List Item) (item : Item) (c : Credential) : List Item :=
  updateItemStore v (Item.mk item.name (removeFirstCredential item.credentials c))

/-! ## VaultManager operations of `core.go` -/

/-- Embedding of `core.checkPassword`: an empty vault validates any
passphrase; otherwise the password of credential 0 of the item at index 0 is
decrypted with the key derived from the supplied passphrase, and the result
is valid exactly when decryption succeeds.  Go indexing `Credentials[0]`
panics on an item without credentials. -/
def checkPassword (P : CryptoPrims) (v : List Item) (password : List Nat) : Res Bool :=
  if v.length = 0 then Res.ok true
  else
    match getByIndexStore v 0 with
    | none => Res.err GoError.outOfRange
    | some item =>
        match item.credentials with
        | [] => Res.panicked "runtime error: index out of range"
        | c :: _ =>
            match AesGcmDecrypt P password c.password with
            | Res.ok _ => Res.ok true
            | Res.err e => Res.err e
            | Res.panicked s => Res.panicked s

/-- Alphabet of `core.generatePassword`: 70 characters, uppercase first. -/
def coreChars : List Nat :=
  strBytes ("ABCDEFGHIJKLMNOPQRSTUVWXYZ" ++ "abcdefghijklmnopqrstuvwxyz" ++
    "0123456789" ++ "!$%&()/?")

/-- Embedding of the package-local `core.generatePassword`: `length`
characters drawn independently from the 70-character alphabet.  `r k` is the
k-th draw of the random source; `rand.Intn n` is embedded as `r k % n`,
matching its range. -/
def generatePassword (r : Nat → Nat) (length : Nat) : List Nat :=
  (List.range length).map (fun i => coreChars.getD (r i % coreChars.length) 0)

/-- Storage step of `core.GenerateForSite` once the credential is built: a
fresh item is appended when the name is unknown, otherwise the credential is
appended to the existing item. -/
def generateForSiteStore (v : List Item) (name : List Nat) (credential : Credential)
    (password : List Nat) : Res (List Item × Option (List Nat)) :=
  match getByNameStore v name with
  | none => Res.ok (addItemStore v (Item.mk name [credential]), some password)
  | some _ => Res.ok (addCredentialStore v name credential, some password)

/-- Embedding of the storage-mutating part of `core.GenerateForSite`, after
the interactive prompts supplied `name` and `username`.  `globalPassword` is
the master passphrase, `r` feeds `rand.Intn` inside `generatePassword`, and
`nonce` is the nonce drawn inside `AesGcmEncrypt`.  The result is the new
vault together with the plaintext password handed to the clipboard.  On a
duplicate (name, username) pair the function returns success before even
reading the passphrase, leaving the vault unchanged; on an invalid
passphrase it returns without mutation; the error of `AesGcmEncrypt` is
discarded as in the source (an empty blob would be stored). -/
def GenerateForSite (P : CryptoPrims) (r : Nat → Nat) (nonce : List Nat) (v : List Item)
    (name username globalPassword : List Nat) : Res (List Item × Option (List Nat)) :=
  let dup := match getByNameStore v name with
    | some item => (GetCredentialByUsername item username).isSome
    | none => false
  if dup then Res.ok (v, none)
  else
    match checkPassword P v globalPassword with
    | Res.panicked s => Res.panicked s
    | Res.err _ => Res.ok (v, none)
    | Res.ok valid =>
        if valid then
          match AesGcmEncrypt P globalPassword (generatePassword r 20) nonce with
          | Res.panicked s => Res.panicked s
          | Res.err _ =>
              generateForSiteStore v name (Credential.mk username []) (generatePassword r 20)
          | Res.ok b =>
              generateForSiteStore v name (Credential.mk username b) (generatePassword r 20)
        else Res.ok (v, none)

/-- Username-replacement loop and `UpdateItem` call of `core.EditItem`:
every credential of the item whose username equals `user` has it replaced by
`newUsername0`, or by `user` itself when the new input is empty. -/
def editApply (v : List Item) (item : Item) (user newUsername0 : List Nat) : List Item :=
  let newUsername := if newUsername0 = [] then user else newUsername0
  updateItemStore v (Item.mk item.name
    (item.credentials.map (fun cr =>
      if cr.username = user then Credential.mk newUsername cr.password else cr)))

/-- Embedding of the mutating core of `core.EditItem` with the interactive
inputs as parameters.  For a single-credential item the loop matches that
credential's username.  For an item with several credentials the source
declares the prompted username with `:=` inside the else block, shadowing
the outer `username` variable, which therefore stays the empty string: the
existence check uses the prompted name, but the rename loop compares every
credential against the empty string.  Unknown names or usernames terminate
the process without mutation. -/
def EditItem (v : List Item) (name username newUsername : List Nat) : List Item :=
  match getByNameStore v name with
  | none => v
  | some item =>
      if item.credentials.length = 1 then
        editApply v item ((item.credentials.headD (Credential.mk [] [])).username) newUsername
      else
        match GetCredentialByUsername item username with
        | none => v
        | some _ => editApply v item [] newUsername

/-- Embedding of the mutating core of `core.DeleteItem`: an item with at
most one credential is deleted outright (the username is never consulted);
otherwise the credential selected by the prompted username is removed from
the item.  Unknown names or usernames terminate the process without
mutation. -/
def DeleteItem (v : List Item) (name username : List Nat) : List Item :=
  match getByNameStore v name with
  | none => v
  | some item =>
      if item.credentials.length ≤ 1 then deleteItemStore v item
      else
        match GetCredentialByUsername item username with
        | none => v
        | some c => deleteCredentialStore v item c

/-! ## Password generator of `crypt.go` -/

/-- Lowercase class of `crypt.GeneratePassword`. -/
def lowercaseChars : List Nat := strBytes "abcdefghijklmnopqrstuvwxyz"

/-- Uppercase class of `crypt.GeneratePassword`. -/
def uppercaseChars : List Nat := strBytes "ABCDEFGHIJKLMNOPQRSTUVWXYZ"

/-- Digit class of `crypt.GeneratePassword`. -/
def numberChars : List Nat := strBytes "0123456789"

/-- Symbol class of `crypt.GeneratePassword`. -/
def symbolChars : List Nat := strBytes "!$%&()/?"

/-- Combined alphabet of `crypt.GeneratePassword` (70 characters). -/
def allChars : List Nat := lowercaseChars ++ uppercaseChars ++ numberChars ++ symbolChars

/-- Go swap statement sequence `temp := a[i]; a[i] = a[randomPosition];
a[randomPosition] = temp`. -/
def swapAt (a : List Nat) (i j : Nat) : List Nat :=
  (a.set i (a.getD j 0)).set j (a.getD i 0)

/-- Embedding of `crypt.GeneratePassword`.  `length` is a Go int and may be
negative; a Go loop `for i := 0; i < n; i++` runs `n.toNat` times.  `r k` is
the k-th draw of the random source (`rand.Intn n` is embedded as `r k % n`).
The function forces one character of each class, fills up to `length` from
the combined alphabet, then applies `length` random swaps. -/
def GeneratePassword (r : Nat → Nat) (length : Int) : List Nat :=
  let a1 := [lowercaseChars.getD (r 0 % 26) 0, uppercaseChars.getD (r 1 % 26) 0,
      numberChars.getD (r 2 % 10) 0, symbolChars.getD (r 3 % 8) 0] ++
    (List.range (length - 4).toNat).map (fun i => allChars.getD (r (4 + i) % 70) 0)
  let base := 4 + (length - 4).toNat
  (List.range length.toNat).foldl (fun a i => swapAt a i (r (base + i) % length.toNat)) a1

theorem b64Val_b64Chr (x : Nat) (h : x < 64) : b64Val (b64Chr x) = some x := by
  revert h
  revert x
  decide

theorem b64Chr_lt_128 (x : Nat) (h : x < 64) : b64Chr x < 128 := by
  revert h
  revert x
  decide

theorem b64Chr_ne_pad (x : Nat) (h : x < 64) : b64Chr x ≠ b64Pad := by
  revert h
  revert x
  decide

theorem b64ValAux_none_of_high (l : List Nat) : ∀ (c i : Nat),
    (∀ a ∈ l, a < 128) → 128 ≤ c → b64ValAux l c i = none := by
  induction l with
  | nil => intro c i _ _; rfl
  | cons a rest ih =>
      intro c i hl hc
      have ha : a < 128 := hl a (List.mem_cons_self a rest)
      have hne : a ≠ c := by omega
      simp only [b64ValAux, if_neg hne]
      exact ih c (i + 1) (fun x hx => hl x (List.mem_cons_of_mem a hx)) hc

theorem b64Val_none_of_high (c : Nat) (hc : 128 ≤ c) : b64Val c = none := by
  have hl : ∀ a ∈ b64Alphabet, a < 128 := by decide
  exact b64ValAux_none_of_high b64Alphabet c 0 hl hc

/-- Round trip of the base64 embedding on byte sequences. -/
theorem b64DecodeGo_b64Encode (bs : List Nat) (h : ∀ b ∈ bs, b < 256) :
    b64DecodeGo (b64Encode bs) = (bs, none) := by
  induction bs using b64Encode.induct with
  | case1 => rfl
  | case2 b0 =>
      have hb0 : b0 < 256 := h b0 (by simp)
      have h0 : b0 / 4 < 64 := by omega
      have h1 : b0 % 4 * 16 < 64 := by omega
      simp [b64Encode, b64DecodeGo, b64Val_b64Chr _ h0, b64Val_b64Chr _ h1]
      all_goals omega
  | case3 b0 b1 =>
      have hb0 : b0 < 256 := h b0 (by simp)
      have hb1 : b1 < 256 := h b1 (by simp)
      have h0 : b0 / 4 < 64 := by omega
      have h1 : b0 % 4 * 16 + b1 / 16 < 64 := by omega
      have h2 : b1 % 16 * 4 < 64 := by omega
      simp [b64Encode, b64DecodeGo, b64Val_b64Chr _ h0, b64Val_b64Chr _ h1,
        b64Val_b64Chr _ h2, b64Chr_ne_pad _ h2]
      constructor
      all_goals omega
  | case4 b0 b1 b2 rest ih =>
      have hb0 : b0 < 256 := h b0 (by simp)
      have hb1 : b1 < 256 := h b1 (by simp)
      have hb2 : b2 < 256 := h b2 (by simp)
      have h0 : b0 / 4 < 64 := by omega
      have h1 : b0 % 4 * 16 + b1 / 16 < 64 := by omega
      have h2 : b1 % 16 * 4 + b2 / 64 < 64 := by omega
      have h3 : b2 % 64 < 64 := by omega
      have ihr := ih (fun b hb => h b (by simp [hb]))
      have e0 : b0 / 4 * 4 + (b0 % 4 * 16 + b1 / 16) / 16 = b0 := by omega
      have e1 : (b0 % 4 * 16 + b1 / 16) % 16 * 16 + (b1 % 16 * 4 + b2 / 64) / 4 = b1 := by
        omega
      have e2 : (b1 % 16 * 4 + b2 / 64) % 4 * 64 + b2 % 64 = b2 := by omega
      simp [b64Encode, b64DecodeGo, b64Val_b64Chr _ h0, b64Val_b64Chr _ h1,
        b64Val_b64Chr _ h2, b64Val_b64Chr _ h3, b64Chr_ne_pad _ h2, b64Chr_ne_pad _ h3,
        ihr, e0, e1, e2]

theorem xor_lt_256 {a b : Nat} (ha : a < 256) (hb : b < 256) : a ^^^ b < 256 := by
  have h : a ^^^ b < 2 ^ 8 := Nat.xor_lt_two_pow (by omega) (by omega)
  omega

theorem length_keystream (E : List Nat → List Nat) (nonce : List Nat) (n : Nat)
    (hE : ∀ b, (E b).length = 16) : (keystream E nonce n).length = n := by
  have hlen : ((List.range ((n + 15) / 16)).flatMap
      (fun i => E (nonce ++ be32 (i + 2)))).length = 16 * ((n + 15) / 16) := by
    rw [List.length_flatMap]
    have : (List.map (List.length ∘ fun i => E (nonce ++ be32 (i + 2)))
        (List.range ((n + 15) / 16))) = List.replicate ((n + 15) / 16) 16 := by
      rw [show (List.length ∘ fun i => E (nonce ++ be32 (i + 2))) =
          Function.const Nat 16 from funext fun i => hE _]
      rw [List.map_const, List.length_range]
    rw [this, List.sum_replicate, smul_eq_mul, Nat.mul_comm]
  unfold keystream
  rw [List.length_take, hlen]
  omega

theorem mem_keystream_lt (E : List Nat → List Nat) (nonce : List Nat) (n : Nat)
    (hE : ∀ b x, x ∈ E b → x < 256) : ∀ x ∈ keystream E nonce n, x < 256 := by
  intro x hx
  have hx2 := List.take_subset _ _ hx
  rw [List.mem_flatMap] at hx2
  obtain ⟨i, _, hxi⟩ := hx2
  exact hE _ x hxi

theorem length_xorBytes (a b : List Nat) : (xorBytes a b).length = min a.length b.length :=
  List.length_zipWith _ a b

theorem mem_xorBytes_lt (a b : List Nat) (ha : ∀ x ∈ a, x < 256) (hb : ∀ x ∈ b, x < 256) :
    ∀ x ∈ xorBytes a b, x < 256 := by
  induction a generalizing b with
  | nil => intro x hx; simp [xorBytes] at hx
  | cons c rest ih =>
      intro x hx
      cases b with
      | nil => simp [xorBytes] at hx
      | cons d rest2 =>
          simp only [xorBytes, List.zipWith_cons_cons, List.mem_cons] at hx
          rcases hx with h | h
          · subst h
            exact xor_lt_256 (ha c (by simp)) (hb d (by simp))
          · exact ih rest2 (fun y hy => ha y (by simp [hy]))
              (fun y hy => hb y (by simp [hy])) x h

theorem xorBytes_xorBytes (a b : List Nat) (h : a.length ≤ b.length) :
    xorBytes (xorBytes a b) b = a := by
  induction a generalizing b with
  | nil => simp [xorBytes]
  | cons c rest ih =>
      cases b with
      | nil => simp at h
      | cons d rest2 =>
          simp only [xorBytes, List.zipWith_cons_cons]
          simp only [List.length_cons] at h
          have ihr := ih rest2 (by omega)
          simp only [xorBytes] at ihr
          simp [ihr, Nat.xor_cancel_right d c]

theorem length_natToBytes16 (n : Nat) : (natToBytes16 n).length = 16 := by
  simp [natToBytes16]

theorem mem_natToBytes16_lt (n : Nat) : ∀ x ∈ natToBytes16 n, x < 256 := by
  intro x hx
  rw [natToBytes16, List.mem_map] at hx
  obtain ⟨i, _, hxi⟩ := hx
  omega

theorem length_gcmTag (E : List Nat → List Nat) (nonce ct : List Nat)
    (hE : ∀ b, (E b).length = 16) : (gcmTag E nonce ct).length = 16 := by
  unfold gcmTag
  rw [length_xorBytes, length_natToBytes16, hE]
  simp

theorem mem_gcmTag_lt (E : List Nat → List Nat) (nonce ct : List Nat)
    (hE : ∀ b x, x ∈ E b → x < 256) : ∀ x ∈ gcmTag E nonce ct, x < 256 := by
  unfold gcmTag
  exact mem_xorBytes_lt _ _ (mem_natToBytes16_lt _) (hE _)

theorem gcmOpen_seal (E : List Nat → List Nat) (nonce ct : List Nat)
    (hE : ∀ b, (E b).length = 16) :
    gcmOpen E nonce (ct ++ gcmTag E nonce ct) =
      some (xorBytes ct (keystream E nonce ct.length)) := by
  have htag : (gcmTag E nonce ct).length = 16 := length_gcmTag E nonce ct hE
  have hlen : (ct ++ gcmTag E nonce ct).length = ct.length + 16 := by
    rw [List.length_append, htag]
  have hsub : (ct ++ gcmTag E nonce ct).length - TagSize = ct.length := by
    rw [hlen]
    unfold TagSize
    omega
  simp only [gcmOpen, hsub]
  rw [if_neg (by rw [hlen]; unfold TagSize; omega)]
  rw [List.take_left, List.drop_left]
  rw [if_pos rfl]

theorem validAesKeySize_of_kdf (P : CryptoPrims) (pw : List Nat)
    (hkdf : ∀ password salt iter n, (P.pbkdf2Sha1 password salt iter n).length = n) :
    validAesKeySize (GenerateKey P pw) = true := by
  have hkey : (GenerateKey P pw).length = 32 := hkdf pw theSalt 4096 32
  simp [validAesKeySize, hkey]

/-- C2: round trip of authenticated encryption.  For every choice of the
external primitives satisfying their length contracts, every passphrase,
every plaintext byte string and every nonce drawn by the encryptor,
decrypting the blob produced by `AesGcmEncrypt` with the key derived from the
same passphrase returns the original plaintext. -/
theorem AesGcmEncrypt_AesGcmDecrypt_roundtrip (P : CryptoPrims)
    (pw text nonce blob : List Nat)
    (hkdf : ∀ password salt iter n, (P.pbkdf2Sha1 password salt iter n).length = n)
    (hElen : ∀ k b, (P.aesEnc k b).length = 16)
    (hEbytes : ∀ k b x, x ∈ P.aesEnc k b → x < 256)
    (hnonce : nonce.length = 12)
    (hnb : ∀ x ∈ nonce, x < 256)
    (htext : ∀ x ∈ text, x < 256)
    (henc : AesGcmEncrypt P pw text nonce = Res.ok blob) :
    AesGcmDecrypt P pw blob = Res.ok text := by
  have hvalid : validAesKeySize (GenerateKey P pw) = true := validAesKeySize_of_kdf P pw hkdf
  have hE16 : ∀ b, (P.aesEnc (GenerateKey P pw) b).length = 16 := hElen _
  have hEb : ∀ b x, x ∈ P.aesEnc (GenerateKey P pw) b → x < 256 := hEbytes _
  simp only [AesGcmEncrypt, hvalid] at henc
  rw [if_neg (by simp)] at henc
  rw [if_neg (by simp [hnonce, NonceSize])] at henc
  have hblob : b64Encode (nonce ++
      xorBytes text (keystream (P.aesEnc (GenerateKey P pw)) nonce text.length) ++
      gcmTag (P.aesEnc (GenerateKey P pw)) nonce
        (xorBytes text (keystream (P.aesEnc (GenerateKey P pw)) nonce text.length))) = blob := by
    exact Res.ok.inj henc
  subst hblob
  have hks_len : (keystream (P.aesEnc (GenerateKey P pw)) nonce text.length).length =
      text.length := length_keystream _ _ _ hE16
  have hct_len : (xorBytes text
      (keystream (P.aesEnc (GenerateKey P pw)) nonce text.length)).length = text.length := by
    rw [length_xorBytes, hks_len]
    simp
  have htag_len : (gcmTag (P.aesEnc (GenerateKey P pw)) nonce
      (xorBytes text (keystream (P.aesEnc (GenerateKey P pw)) nonce text.length))).length =
      16 := length_gcmTag _ _ _ hE16
  have hbytes : ∀ x ∈ nonce ++
      xorBytes text (keystream (P.aesEnc (GenerateKey P pw)) nonce text.length) ++
      gcmTag (P.aesEnc (GenerateKey P pw)) nonce
        (xorBytes text (keystream (P.aesEnc (GenerateKey P pw)) nonce text.length)),
      x < 256 := by
    intro x hx
    rw [List.append_assoc, List.mem_append] at hx
    rcases hx with hx | hx
    · exact hnb x hx
    · rw [List.mem_append] at hx
      rcases hx with hx | hx
      · exact mem_xorBytes_lt _ _ htext (mem_keystream_lt _ _ _ hEb) x hx
      · exact mem_gcmTag_lt _ _ _ hEb x hx
  have hdec := b64DecodeGo_b64Encode _ hbytes
  simp only [AesGcmDecrypt, hdec, hvalid]
  rw [if_neg (by simp)]
  rw [if_neg (by
    simp only [List.length_append, hnonce, hct_len, htag_len, NonceSize]
    omega)]
  rw [List.append_assoc]
  rw [show (NonceSize : Nat) = nonce.length from hnonce.symm]
  rw [List.take_left, List.drop_left]
  rw [gcmOpen_seal _ _ _ hE16]
  rw [hct_len]
  rw [xorBytes_xorBytes text _ (by rw [hks_len])]

theorem flipBit_cons_zero (x : Nat) (xs : List Nat) :
    flipBit (x :: xs) 0 7 = (x ^^^ 128) :: xs := rfl

theorem xor128_of_lt : ∀ a, a < 128 → a ^^^ 128 = a + 128 := by decide

set_option maxRecDepth 100000 in
/-- Witness of the round-trip theorem at concrete inputs: the plaintext
"hi" ([104, 105]) encrypted under passphrase [112] with the zero nonce
decrypts back to itself. -/
theorem AesGcmEncrypt_AesGcmDecrypt_roundtrip_witness :
    AesGcmDecrypt trivPrims [112]
      (List.replicate 16 65 ++ [97, 71, 107] ++ List.replicate 21 65) = Res.ok [104, 105] := by
  have henc : AesGcmEncrypt trivPrims [112] [104, 105] (List.replicate 12 0) =
      Res.ok (List.replicate 16 65 ++ [97, 71, 107] ++ List.replicate 21 65) := by decide
  exact AesGcmEncrypt_AesGcmDecrypt_roundtrip trivPrims [112] [104, 105]
    (List.replicate 12 0) _
    (fun _ _ _ n => by simp [trivPrims])
    (fun _ _ => by simp [trivPrims])
    (fun k b x hx => by simp [trivPrims] at hx; omega)
    (by decide) (by decide) (by decide) henc

/-- C3 (code bug): flipping the high bit of the first character of any blob
produced by `AesGcmEncrypt` makes `AesGcmDecrypt` crash with a slice-bounds
panic instead of returning an `AuthenticationFailure` error: the first
base64 quantum becomes invalid, the discarded decode error leaves an empty
byte buffer, and the nonce is sliced from it without a length check. -/
theorem AesGcmDecrypt_bitflip_panics (P : CryptoPrims) (pw text nonce blob : List Nat)
    (hnonce : nonce.length = 12) (hnb : ∀ x ∈ nonce, x < 256)
    (henc : AesGcmEncrypt P pw text nonce = Res.ok blob) :
    AesGcmDecrypt P pw (flipBit blob 0 7) =
      Res.panicked "runtime error: slice bounds out of range" := by
  simp only [AesGcmEncrypt] at henc
  by_cases hv : validAesKeySize (GenerateKey P pw) = false
  · rw [if_pos hv] at henc
    exact absurd henc (by simp)
  · rw [if_neg hv] at henc
    rw [if_neg (by simp [hnonce, NonceSize])] at henc
    have hblob := Res.ok.inj henc
    subst hblob
    cases nonce with
    | nil => simp at hnonce
    | cons n0 t1 =>
      cases t1 with
      | nil => simp at hnonce
      | cons n1 t2 =>
        cases t2 with
        | nil => simp at hnonce
        | cons n2 t3 =>
          have hn0 : n0 < 256 := hnb n0 (by simp)
          have hc0lt : b64Chr (n0 / 4) < 128 := b64Chr_lt_128 _ (by omega)
          have hge : 128 ≤ b64Chr (n0 / 4) ^^^ 128 := by
            rw [xor128_of_lt _ hc0lt]
            omega
          have hval : b64Val (b64Chr (n0 / 4) ^^^ 128) = none := b64Val_none_of_high _ hge
          simp only [List.cons_append, b64Encode, flipBit_cons_zero]
          simp only [AesGcmDecrypt, b64DecodeGo, hval]
          rw [if_neg hv]
          rw [if_pos (by simp [NonceSize])]

set_option maxRecDepth 100000 in
/-- Witness of the bit-flip panic at a concrete blob produced by the
encryption function. -/
theorem AesGcmDecrypt_bitflip_panics_witness :
    AesGcmDecrypt trivPrims [112]
      (flipBit (List.replicate 16 65 ++ [97, 71, 107] ++ List.replicate 21 65) 0 7) =
      Res.panicked "runtime error: slice bounds out of range" := by
  have henc : AesGcmEncrypt trivPrims [112] [104, 105] (List.replicate 12 0) =
      Res.ok (List.replicate 16 65 ++ [97, 71, 107] ++ List.replicate 21 65) := by decide
  exact AesGcmDecrypt_bitflip_panics trivPrims [112] [104, 105] (List.replicate 12 0) _
    (by decide) (by decide) henc

/-- C4 (code bug): on any input whose base64 decoding yields fewer bytes
than the 12-byte nonce, `AesGcmDecrypt` does not return a MalformedBlob
error: it panics (slice bounds out of range), because the decoded buffer is
sliced without a length check. -/
theorem AesGcmDecrypt_short_blob_panics (P : CryptoPrims) (pw blob : List Nat)
    (hvalid : validAesKeySize (GenerateKey P pw) = true)
    (hshort : (b64DecodeGo blob).1.length < 12) :
    AesGcmDecrypt P pw blob = Res.panicked "runtime error: slice bounds out of range" := by
  simp only [AesGcmDecrypt, hvalid]
  rw [if_neg (by simp)]
  rw [if_pos (by simpa [NonceSize] using hshort)]

/-- Witness of the short-blob panic: the empty string decodes to zero bytes
and decryption of it panics. -/
theorem AesGcmDecrypt_short_blob_panics_witness :
    AesGcmDecrypt trivPrims [112] [] =
      Res.panicked "runtime error: slice bounds out of range" :=
  AesGcmDecrypt_short_blob_panics trivPrims [112] [] (by decide) (by decide)

/-! ## Helper lemmas on the vault model -/

theorem find?_append_cons {α : Type} (p : α → Bool) (l1 l2 : List α) (x : α)
    (h1 : ∀ y ∈ l1, p y = false) (hx : p x = true) :
    (l1 ++ x :: l2).find? p = some x := by
  induction l1 with
  | nil => simpa using List.find?_cons_of_pos l2 hx
  | cons a rest ih =>
      have ha : ¬ p a = true := by
        rw [h1 a (by simp)]
        simp
      simp only [List.cons_append]
      rw [List.find?_cons_of_neg _ ha]
      exact ih (fun y hy => h1 y (by simp [hy]))

theorem updateItemStore_append (v1 v2 : List Item) (it0 target : Item)
    (h1 : ∀ it ∈ v1, it.name ≠ target.name) (h0 : it0.name = target.name) :
    updateItemStore (v1 ++ it0 :: v2) target = v1 ++ target :: v2 := by
  induction v1 with
  | nil => simp [updateItemStore, h0]
  | cons a rest ih =>
      have ha : a.name ≠ target.name := h1 a (by simp)
      simp only [List.cons_append, updateItemStore, if_neg ha, List.append_eq]
      rw [ih (fun it hit => h1 it (by simp [hit]))]

theorem deleteItemStore_append (v1 v2 : List Item) (it0 target : Item)
    (h1 : ∀ it ∈ v1, it.name ≠ target.name) (h0 : it0.name = target.name) :
    deleteItemStore (v1 ++ it0 :: v2) target = v1 ++ v2 := by
  induction v1 with
  | nil => simp [deleteItemStore, h0]
  | cons a rest ih =>
      have ha : a.name ≠ target.name := h1 a (by simp)
      simp only [List.cons_append, deleteItemStore, if_neg ha, List.append_eq]
      rw [ih (fun it hit => h1 it (by simp [hit]))]

theorem removeFirstCredential_append (cs1 cs2 : List Credential) (c : Credential)
    (h1 : ∀ y ∈ cs1, y ≠ c) :
    removeFirstCredential (cs1 ++ c :: cs2) c = cs1 ++ cs2 := by
  induction cs1 with
  | nil => simp [removeFirstCredential]
  | cons a rest ih =>
      have ha : a ≠ c := h1 a (by simp)
      simp only [List.cons_append, removeFirstCredential, if_neg ha, List.append_eq]
      rw [ih (fun y hy => h1 y (by simp [hy]))]

theorem AesGcmDecrypt_not_panicked (P : CryptoPrims) (pw blob : List Nat)
    (h : 12 ≤ (b64DecodeGo blob).1.length) :
    ∀ s, AesGcmDecrypt P pw blob ≠ Res.panicked s := by
  intro s
  simp only [AesGcmDecrypt]
  by_cases hv : validAesKeySize (GenerateKey P pw) = false
  · rw [if_pos hv]
    simp
  · rw [if_neg hv]
    rw [if_neg (by simp only [NonceSize]; omega)]
    cases hg : gcmOpen (P.aesEnc (GenerateKey P pw)) ((b64DecodeGo blob).1.take NonceSize)
        ((b64DecodeGo blob).1.drop NonceSize) <;> simp [hg]

/-- C1: passphrase verification.  On an empty vault `checkPassword` accepts
any passphrase.  On a non-empty vault whose first item carries at least one
credential with a well-formed blob (at least a nonce of decoded bytes, which
every persisted blob has), the check returns Valid exactly when authenticated
decryption of the first credential of item 0 under the key derived from the
supplied passphrase succeeds, and returns Invalid (false with the error)
otherwise. -/
theorem checkPassword_matches_spec (P : CryptoPrims) (v : List Item) (pw : List Nat) :
    (v = [] → checkPassword P v pw = Res.ok true) ∧
    (∀ item rest c cs, v = item :: rest → item.credentials = c :: cs →
      12 ≤ (b64DecodeGo c.password).1.length →
      ((checkPassword P v pw = Res.ok true ↔
          ∃ pt, AesGcmDecrypt P pw c.password = Res.ok pt) ∧
       (∀ e, AesGcmDecrypt P pw c.password = Res.err e → checkPassword P v pw = Res.err e) ∧
       ((¬ ∃ pt, AesGcmDecrypt P pw c.password = Res.ok pt) →
          ∃ e, checkPassword P v pw = Res.err e))) := by
  constructor
  · intro hv
    subst hv
    rfl
  · intro item rest c cs hv hcred hlen
    subst hv
    have hnp := AesGcmDecrypt_not_panicked P pw c.password hlen
    have hcp : checkPassword P (item :: rest) pw =
        (match AesGcmDecrypt P pw c.password with
         | Res.ok _ => Res.ok true
         | Res.err e => Res.err e
         | Res.panicked s => Res.panicked s) := by
      simp [checkPassword, getByIndexStore, hcred]
    cases hd : AesGcmDecrypt P pw c.password with
    | ok pt =>
        rw [hd] at hcp
        have hcp2 : checkPassword P (item :: rest) pw = Res.ok true := hcp
        refine ⟨⟨fun _ => ⟨pt, rfl⟩, fun _ => hcp2⟩, ?_, ?_⟩
        · intro e he
          simp at he
        · intro hno
          exact absurd ⟨pt, rfl⟩ hno
    | err e =>
        rw [hd] at hcp
        have hcp2 : checkPassword P (item :: rest) pw = Res.err e := hcp
        refine ⟨⟨fun hok => ?_, fun hex => ?_⟩, fun e2 he2 => ?_, fun _ => ⟨e, hcp2⟩⟩
        · rw [hcp2] at hok
          simp at hok
        · obtain ⟨pt, hpt⟩ := hex
          simp at hpt
        · injection he2 with hee
          rw [← hee]
          exact hcp2
    | panicked s => exact absurd hd (hnp s)

set_option maxRecDepth 100000 in
/-- Witness of the passphrase check on a concrete one-item vault holding a
well-formed 28-byte blob: the check succeeds since decryption succeeds. -/
theorem checkPassword_matches_spec_witness :
    checkPassword trivPrims
      [Item.mk [110] [Credential.mk [117] (b64Encode (List.replicate 28 0))]] [112] =
      Res.ok true := by
  have h := (checkPassword_matches_spec trivPrims
      [Item.mk [110] [Credential.mk [117] (b64Encode (List.replicate 28 0))]] [112]).2
      (Item.mk [110] [Credential.mk [117] (b64Encode (List.replicate 28 0))]) []
      (Credential.mk [117] (b64Encode (List.replicate 28 0))) [] rfl rfl (by decide)
  exact h.1.mpr ⟨[], by decide⟩

set_option maxRecDepth 10000 in
/-- C5 (code bug): renaming a credential inside an item that has more than
one credential is a no-op.  The prompted username is declared with a short
variable declaration inside the else block of `EditItem`, shadowing the
outer `username` variable, which keeps its zero value (the empty string);
the rename loop therefore matches no credential.  Here the vault holds
"example.com" with credentials "alice" and "bob"; renaming "alice" to
"carol" returns the vault unchanged, contradicting the claim that the
credential's username field is replaced. -/
theorem EditItem_multi_credential_noop :
    EditItem
      [Item.mk (strBytes "example.com")
        [Credential.mk (strBytes "alice") [1], Credential.mk (strBytes "bob") [2]]]
      (strBytes "example.com") (strBytes "alice") (strBytes "carol") =
      [Item.mk (strBytes "example.com")
        [Credential.mk (strBytes "alice") [1], Credential.mk (strBytes "bob") [2]]] := by
  decide

/-- C6: credential deletion.  In a vault `v1 ++ item :: v2` whose item
named `name` holds the credential `c` for `username` (and no earlier
credential of that username), `DeleteItem` removes the whole item when `c`
is its only credential, and otherwise removes exactly `c`, leaving the other
credentials and all other items unchanged. -/
theorem DeleteItem_removes_credential (v1 v2 : List Item) (cs1 cs2 : List Credential)
    (name username : List Nat) (c : Credential)
    (hv1 : ∀ it ∈ v1, it.name ≠ name)
    (hcs1 : ∀ cr ∈ cs1, cr.username ≠ username)
    (hc : c.username = username) :
    (cs1 = [] → cs2 = [] →
      DeleteItem (v1 ++ Item.mk name (cs1 ++ c :: cs2) :: v2) name username = v1 ++ v2) ∧
    (1 < (cs1 ++ c :: cs2).length →
      DeleteItem (v1 ++ Item.mk name (cs1 ++ c :: cs2) :: v2) name username =
        v1 ++ Item.mk name (cs1 ++ cs2) :: v2) := by
  have hfind : getByNameStore (v1 ++ Item.mk name (cs1 ++ c :: cs2) :: v2) name =
      some (Item.mk name (cs1 ++ c :: cs2)) := by
    apply find?_append_cons
    · intro y hy
      simp [hv1 y hy]
    · simp
  constructor
  · intro h1 h2
    subst h1
    subst h2
    simp only [List.nil_append] at hfind
    simp only [DeleteItem, List.nil_append, hfind]
    rw [if_pos (by simp)]
    exact deleteItemStore_append v1 v2 _ _ (fun it hit => hv1 it hit) rfl
  · intro hlen
    simp only [DeleteItem, hfind]
    rw [if_neg (by omega)]
    have hcred : GetCredentialByUsername (Item.mk name (cs1 ++ c :: cs2)) username = some c := by
      apply find?_append_cons
      · intro y hy
        simp [hcs1 y hy]
      · simp [hc]
    rw [hcred]
    unfold deleteCredentialStore
    have hrm : removeFirstCredential (cs1 ++ c :: cs2) c = cs1 ++ cs2 :=
      removeFirstCredential_append cs1 cs2 c
        (fun y hy hyc => hcs1 y hy (hyc ▸ hc))
    simp only [hrm]
    exact updateItemStore_append v1 v2 _ _ (fun it hit => hv1 it hit) rfl

/-- Witness of credential deletion: deleting "bob" from an item with
credentials "alice" and "bob" keeps the item with only "alice". -/
theorem DeleteItem_removes_credential_witness :
    DeleteItem [Item.mk [110] [Credential.mk [97] [1], Credential.mk [98] [2]]] [110] [98] =
      [Item.mk [110] [Credential.mk [97] [1]]] := by
  have h := (DeleteItem_removes_credential [] [] [Credential.mk [97] [1]] [] [110] [98]
      (Credential.mk [98] [2]) (by simp) (by decide) rfl).2 (by decide)
  simpa using h

/-- C7: duplicate handling of `GenerateForSite`.  When the (name, username)
pair already exists in the vault, the operation returns success at once and
the vault is completely unchanged: no item added, no credential added or
modified, no passphrase consulted. -/
theorem GenerateForSite_duplicate_noop (P : CryptoPrims) (r : Nat → Nat) (nonce : List Nat)
    (v : List Item) (name username gp : List Nat) (item : Item) (c : Credential)
    (hitem : getByNameStore v name = some item)
    (hcred : GetCredentialByUsername item username = some c) :
    GenerateForSite P r nonce v name username gp = Res.ok (v, none) := by
  simp [GenerateForSite, hitem, hcred]

/-- Witness of the duplicate no-op at a concrete one-item vault. -/
theorem GenerateForSite_duplicate_noop_witness :
    GenerateForSite trivPrims (fun _ => 0) (List.replicate 12 0)
      [Item.mk [110] [Credential.mk [117] [1]]] [110] [117] [112] =
      Res.ok ([Item.mk [110] [Credential.mk [117] [1]]], none) :=
  GenerateForSite_duplicate_noop trivPrims (fun _ => 0) (List.replicate 12 0)
    [Item.mk [110] [Credential.mk [117] [1]]] [110] [117] [112]
    (Item.mk [110] [Credential.mk [117] [1]]) (Credential.mk [117] [1])
    (by decide) (by decide)

/-! ## Helper lemmas for the password generators -/

theorem getD_mem_of_lt (l : List Nat) (i : Nat) (h : i < l.length) : l.getD i 0 ∈ l := by
  rw [List.getD_eq_getElem _ _ h]
  exact List.getElem_mem h

theorem getD_set_self (l : List Nat) (i v : Nat) (h : i < l.length) :
    (l.set i v).getD i 0 = v := by
  rw [List.getD_eq_getElem _ _ (by simpa using h)]
  exact List.getElem_set_self _

theorem getD_set_ne (l : List Nat) (i j v : Nat) (hij : i ≠ j) (hj : j < l.length) :
    (l.set i v).getD j 0 = l.getD j 0 := by
  rw [List.getD_eq_getElem _ _ (by simpa using hj), List.getD_eq_getElem _ _ hj]
  exact List.getElem_set_ne hij _

theorem countP_set_balance (p : Nat → Bool) (l : List Nat) : ∀ (i y : Nat), i < l.length →
    (l.set i y).countP p + (if p (l.getD i 0) then 1 else 0) =
      l.countP p + (if p y then 1 else 0) := by
  induction l with
  | nil =>
      intro i y h
      simp at h
  | cons a rest ih =>
      intro i y h
      cases i with
      | zero =>
          simp only [List.set_cons_zero, List.countP_cons, List.getD_cons_zero]
          omega
      | succ n =>
          simp only [List.set_cons_succ, List.countP_cons, List.getD_cons_succ]
          have := ih n y (by simpa using h)
          omega

theorem countP_swapAt (p : Nat → Bool) (l : List Nat) (i j : Nat)
    (hi : i < l.length) (hj : j < l.length) :
    (swapAt l i j).countP p = l.countP p := by
  unfold swapAt
  have hlen : (l.set i (l.getD j 0)).length = l.length := List.length_set l i _
  have h1 := countP_set_balance p l i (l.getD j 0) hi
  have h2 := countP_set_balance p (l.set i (l.getD j 0)) j (l.getD i 0)
    (by rw [hlen]; exact hj)
  by_cases hij : i = j
  · subst hij
    rw [getD_set_self l i _ hi] at h2
    omega
  · rw [getD_set_ne l i j _ hij hj] at h2
    omega

theorem length_swapAt (l : List Nat) (i j : Nat) : (swapAt l i j).length = l.length := by
  simp [swapAt]

theorem foldl_swap_preserves (p : Nat → Bool) (g : Nat → Nat) :
    ∀ (idxs : List Nat) (a : List Nat),
      (∀ i ∈ idxs, i < a.length ∧ g i < a.length) →
      ((idxs.foldl (fun acc i => swapAt acc i (g i)) a).countP p = a.countP p ∧
       (idxs.foldl (fun acc i => swapAt acc i (g i)) a).length = a.length) := by
  intro idxs
  induction idxs with
  | nil => intro a _; exact ⟨rfl, rfl⟩
  | cons i rest ih =>
      intro a h
      have hi := (h i (by simp)).1
      have hgi := (h i (by simp)).2
      have hlen : (swapAt a i (g i)).length = a.length := length_swapAt a i (g i)
      have ihr := ih (swapAt a i (g i)) (fun k hk => by
        rw [hlen]
        exact h k (by simp [hk]))
      simp only [List.foldl_cons]
      exact ⟨ihr.1.trans (countP_swapAt p a i (g i) hi hgi), ihr.2.trans hlen⟩

theorem mem_upper_notin_lower : ∀ ch ∈ uppercaseChars, ch ∉ lowercaseChars := by decide

theorem mem_number_notin_lower : ∀ ch ∈ numberChars, ch ∉ lowercaseChars := by decide

theorem mem_symbol_notin_lower : ∀ ch ∈ symbolChars, ch ∉ lowercaseChars := by decide

theorem mem_lower_notin_upper : ∀ ch ∈ lowercaseChars, ch ∉ uppercaseChars := by decide

theorem mem_number_notin_upper : ∀ ch ∈ numberChars, ch ∉ uppercaseChars := by decide

theorem mem_symbol_notin_upper : ∀ ch ∈ symbolChars, ch ∉ uppercaseChars := by decide

theorem mem_lower_notin_number : ∀ ch ∈ lowercaseChars, ch ∉ numberChars := by decide

theorem mem_upper_notin_number : ∀ ch ∈ uppercaseChars, ch ∉ numberChars := by decide

theorem mem_symbol_notin_number : ∀ ch ∈ symbolChars, ch ∉ numberChars := by decide

theorem mem_lower_notin_symbol : ∀ ch ∈ lowercaseChars, ch ∉ symbolChars := by decide

theorem mem_upper_notin_symbol : ∀ ch ∈ uppercaseChars, ch ∉ symbolChars := by decide

theorem mem_number_notin_symbol : ∀ ch ∈ numberChars, ch ∉ symbolChars := by decide

/-- C8: for every random draw sequence and every requested length of at
least 4, `crypt.GeneratePassword` returns exactly `length` characters, each
from the union of the four classes, with at least one character from each of
the four classes (the final swap loop permutes the forced characters but
preserves the multiset). -/
theorem GeneratePassword_spec (r : Nat → Nat) (length : Int) (h : 4 ≤ length) :
    ((GeneratePassword r length).length = length.toNat) ∧
    (∀ ch ∈ GeneratePassword r length, ch ∈ allChars) ∧
    (∃ ch ∈ GeneratePassword r length, ch ∈ lowercaseChars) ∧
    (∃ ch ∈ GeneratePassword r length, ch ∈ uppercaseChars) ∧
    (∃ ch ∈ GeneratePassword r length, ch ∈ numberChars) ∧
    (∃ ch ∈ GeneratePassword r length, ch ∈ symbolChars) := by
  have hdef : GeneratePassword r length =
      (List.range length.toNat).foldl
        (fun a i => swapAt a i (r (4 + (length - 4).toNat + i) % length.toNat))
        ([lowercaseChars.getD (r 0 % 26) 0, uppercaseChars.getD (r 1 % 26) 0,
          numberChars.getD (r 2 % 10) 0, symbolChars.getD (r 3 % 8) 0] ++
         (List.range (length - 4).toNat).map (fun i => allChars.getD (r (4 + i) % 70) 0)) := rfl
  rw [hdef]
  set a1 : List Nat :=
      [lowercaseChars.getD (r 0 % 26) 0, uppercaseChars.getD (r 1 % 26) 0,
        numberChars.getD (r 2 % 10) 0, symbolChars.getD (r 3 % 8) 0] ++
      (List.range (length - 4).toNat).map (fun i => allChars.getD (r (4 + i) % 70) 0)
    with ha1
  have hA1len : a1.length = length.toNat := by
    rw [ha1]
    simp
    omega
  have hpos : 0 < length.toNat := by omega
  have hcond : ∀ i ∈ List.range length.toNat, i < a1.length ∧
      (r (4 + (length - 4).toNat + i) % length.toNat) < a1.length := by
    intro i hi
    rw [List.mem_range] at hi
    rw [hA1len]
    exact ⟨hi, Nat.mod_lt _ hpos⟩
  have hfold := fun p => foldl_swap_preserves p
      (fun i => r (4 + (length - 4).toNat + i) % length.toNat)
      (List.range length.toNat) a1 hcond
  have he0 : lowercaseChars.getD (r 0 % 26) 0 ∈ lowercaseChars :=
    getD_mem_of_lt _ _ (by rw [show lowercaseChars.length = 26 by decide]; omega)
  have he1 : uppercaseChars.getD (r 1 % 26) 0 ∈ uppercaseChars :=
    getD_mem_of_lt _ _ (by rw [show uppercaseChars.length = 26 by decide]; omega)
  have he2 : numberChars.getD (r 2 % 10) 0 ∈ numberChars :=
    getD_mem_of_lt _ _ (by rw [show numberChars.length = 10 by decide]; omega)
  have he3 : symbolChars.getD (r 3 % 8) 0 ∈ symbolChars :=
    getD_mem_of_lt _ _ (by rw [show symbolChars.length = 8 by decide]; omega)
  have ha1mem : ∀ x ∈ a1, x ∈ allChars := by
    intro x hx
    rw [ha1] at hx
    rcases List.mem_append.mp hx with hx | hx
    · simp only [List.mem_cons, List.not_mem_nil, or_false] at hx
      show x ∈ lowercaseChars ++ uppercaseChars ++ numberChars ++ symbolChars
      rcases hx with hx | hx | hx | hx
      · rw [hx]
        exact List.mem_append.mpr (Or.inl (List.mem_append.mpr
          (Or.inl (List.mem_append.mpr (Or.inl he0)))))
      · rw [hx]
        exact List.mem_append.mpr (Or.inl (List.mem_append.mpr
          (Or.inl (List.mem_append.mpr (Or.inr he1)))))
      · rw [hx]
        exact List.mem_append.mpr (Or.inl (List.mem_append.mpr (Or.inr he2)))
      · rw [hx]
        exact List.mem_append.mpr (Or.inr he3)
    · rw [List.mem_map] at hx
      obtain ⟨i, _, hxi⟩ := hx
      rw [← hxi]
      exact getD_mem_of_lt _ _ (by rw [show allChars.length = 70 by decide]; omega)
  have hna : a1.countP (fun c2 => decide (c2 ∉ allChars)) = 0 :=
    List.countP_eq_zero.mpr (fun x hx => by simp [ha1mem x hx])
  have hposl : 0 < a1.countP (fun c2 => decide (c2 ∈ lowercaseChars)) :=
    List.countP_pos_iff.mpr ⟨lowercaseChars.getD (r 0 % 26) 0,
      by rw [ha1]; exact List.mem_append.mpr (Or.inl (List.mem_cons_self _ _)),
      decide_eq_true he0⟩
  have hposu : 0 < a1.countP (fun c2 => decide (c2 ∈ uppercaseChars)) :=
    List.countP_pos_iff.mpr ⟨uppercaseChars.getD (r 1 % 26) 0,
      by rw [ha1]; exact List.mem_append.mpr (Or.inl (List.mem_cons_of_mem _
        (List.mem_cons_self _ _))),
      decide_eq_true he1⟩
  have hposn : 0 < a1.countP (fun c2 => decide (c2 ∈ numberChars)) :=
    List.countP_pos_iff.mpr ⟨numberChars.getD (r 2 % 10) 0,
      by rw [ha1]; exact List.mem_append.mpr (Or.inl (List.mem_cons_of_mem _
        (List.mem_cons_of_mem _ (List.mem_cons_self _ _)))),
      decide_eq_true he2⟩
  have hposs : 0 < a1.countP (fun c2 => decide (c2 ∈ symbolChars)) :=
    List.countP_pos_iff.mpr ⟨symbolChars.getD (r 3 % 8) 0,
      by rw [ha1]; exact List.mem_append.mpr (Or.inl (List.mem_cons_of_mem _
        (List.mem_cons_of_mem _ (List.mem_cons_of_mem _ (List.mem_cons_self _ _))))),
      decide_eq_true he3⟩
  refine ⟨?_, ?_, ?_, ?_, ?_, ?_⟩
  · rw [(hfold (fun _ => true)).2, hA1len]
  · intro ch hch
    have h0 := (hfold (fun c2 => decide (c2 ∉ allChars))).1
    rw [hna] at h0
    simpa using List.countP_eq_zero.mp h0 ch hch
  · have h1 := (hfold (fun c2 => decide (c2 ∈ lowercaseChars))).1
    obtain ⟨x, hx1, hx2⟩ := List.countP_pos_iff.mp (h1 ▸ hposl)
    exact ⟨x, hx1, by simpa using hx2⟩
  · have h1 := (hfold (fun c2 => decide (c2 ∈ uppercaseChars))).1
    obtain ⟨x, hx1, hx2⟩ := List.countP_pos_iff.mp (h1 ▸ hposu)
    exact ⟨x, hx1, by simpa using hx2⟩
  · have h1 := (hfold (fun c2 => decide (c2 ∈ numberChars))).1
    obtain ⟨x, hx1, hx2⟩ := List.countP_pos_iff.mp (h1 ▸ hposn)
    exact ⟨x, hx1, by simpa using hx2⟩
  · have h1 := (hfold (fun c2 => decide (c2 ∈ symbolChars))).1
    obtain ⟨x, hx1, hx2⟩ := List.countP_pos_iff.mp (h1 ▸ hposs)
    exact ⟨x, hx1, by simpa using hx2⟩

/-- Witness of the generator contract at the draw sequence constantly 0 and
length 4, applying the main theorem and discharging its bound. -/
theorem GeneratePassword_spec_witness :
    (GeneratePassword (fun _ => 0) 4).length = (4 : Int).toNat :=
  (GeneratePassword_spec (fun _ => 0) 4 (by decide)).1

/-- C10: for every requested length below 4 (including zero and negative Go
ints), `crypt.GeneratePassword` neither fails nor crashes: the fill loop and
any overrunning shuffle iterations are skipped or stay inside the 4 forced
characters, and the result always has exactly 4 characters, one from each of
the four classes, ignoring the requested length. -/
theorem GeneratePassword_short_length (r : Nat → Nat) (length : Int) (h : length < 4) :
    ((GeneratePassword r length).length = 4) ∧
    ((GeneratePassword r length).countP (fun c2 => decide (c2 ∈ lowercaseChars)) = 1) ∧
    ((GeneratePassword r length).countP (fun c2 => decide (c2 ∈ uppercaseChars)) = 1) ∧
    ((GeneratePassword r length).countP (fun c2 => decide (c2 ∈ numberChars)) = 1) ∧
    ((GeneratePassword r length).countP (fun c2 => decide (c2 ∈ symbolChars)) = 1) := by
  have hdef : GeneratePassword r length =
      (List.range length.toNat).foldl
        (fun a i => swapAt a i (r (4 + (length - 4).toNat + i) % length.toNat))
        ([lowercaseChars.getD (r 0 % 26) 0, uppercaseChars.getD (r 1 % 26) 0,
          numberChars.getD (r 2 % 10) 0, symbolChars.getD (r 3 % 8) 0] ++
         (List.range (length - 4).toNat).map (fun i => allChars.getD (r (4 + i) % 70) 0)) := rfl
  have hz : (length - 4).toNat = 0 := by omega
  rw [hdef, hz]
  set a1 : List Nat :=
      [lowercaseChars.getD (r 0 % 26) 0, uppercaseChars.getD (r 1 % 26) 0,
        numberChars.getD (r 2 % 10) 0, symbolChars.getD (r 3 % 8) 0] ++
      (List.range 0).map (fun i => allChars.getD (r (4 + i) % 70) 0)
    with ha1
  have hA1len : a1.length = 4 := by rw [ha1]; rfl
  have hcond : ∀ i ∈ List.range length.toNat, i < a1.length ∧
      (r (4 + 0 + i) % length.toNat) < a1.length := by
    intro i hi
    rw [List.mem_range] at hi
    rw [hA1len]
    have hle : length.toNat ≤ 3 := by omega
    have hp : 0 < length.toNat := by omega
    exact ⟨by omega, by have := Nat.mod_lt (r (4 + 0 + i)) hp; omega⟩
  have hfold := fun p => foldl_swap_preserves p
      (fun i => r (4 + 0 + i) % length.toNat) (List.range length.toNat) a1 hcond
  have he0 : lowercaseChars.getD (r 0 % 26) 0 ∈ lowercaseChars :=
    getD_mem_of_lt _ _ (by rw [show lowercaseChars.length = 26 by decide]; omega)
  have he1 : uppercaseChars.getD (r 1 % 26) 0 ∈ uppercaseChars :=
    getD_mem_of_lt _ _ (by rw [show uppercaseChars.length = 26 by decide]; omega)
  have he2 : numberChars.getD (r 2 % 10) 0 ∈ numberChars :=
    getD_mem_of_lt _ _ (by rw [show numberChars.length = 10 by decide]; omega)
  have he3 : symbolChars.getD (r 3 % 8) 0 ∈ symbolChars :=
    getD_mem_of_lt _ _ (by rw [show symbolChars.length = 8 by decide]; omega)
  have hcl : a1.countP (fun c2 => decide (c2 ∈ lowercaseChars)) = 1 := by
    rw [ha1]
    simp only [List.range_zero, List.map_nil, List.append_nil, List.countP_cons,
      List.countP_nil]
    rw [show decide (lowercaseChars.getD (r 0 % 26) 0 ∈ lowercaseChars) = true from decide_eq_true he0,
      show decide (uppercaseChars.getD (r 1 % 26) 0 ∈ lowercaseChars) = false from
        decide_eq_false (mem_upper_notin_lower _ he1),
      show decide (numberChars.getD (r 2 % 10) 0 ∈ lowercaseChars) = false from
        decide_eq_false (mem_number_notin_lower _ he2),
      show decide (symbolChars.getD (r 3 % 8) 0 ∈ lowercaseChars) = false from
        decide_eq_false (mem_symbol_notin_lower _ he3)]
    simp
  have hcu : a1.countP (fun c2 => decide (c2 ∈ uppercaseChars)) = 1 := by
    rw [ha1]
    simp only [List.range_zero, List.map_nil, List.append_nil, List.countP_cons,
      List.countP_nil]
    rw [show decide (lowercaseChars.getD (r 0 % 26) 0 ∈ uppercaseChars) = false from
        decide_eq_false (mem_lower_notin_upper _ he0),
      show decide (uppercaseChars.getD (r 1 % 26) 0 ∈ uppercaseChars) = true from decide_eq_true he1,
      show decide (numberChars.getD (r 2 % 10) 0 ∈ uppercaseChars) = false from
        decide_eq_false (mem_number_notin_upper _ he2),
      show decide (symbolChars.getD (r 3 % 8) 0 ∈ uppercaseChars) = false from
        decide_eq_false (mem_symbol_notin_upper _ he3)]
    simp
  have hcn : a1.countP (fun c2 => decide (c2 ∈ numberChars)) = 1 := by
    rw [ha1]
    simp only [List.range_zero, List.map_nil, List.append_nil, List.countP_cons,
      List.countP_nil]
    rw [show decide (lowercaseChars.getD (r 0 % 26) 0 ∈ numberChars) = false from
        decide_eq_false (mem_lower_notin_number _ he0),
      show decide (uppercaseChars.getD (r 1 % 26) 0 ∈ numberChars) = false from
        decide_eq_false (mem_upper_notin_number _ he1),
      show decide (numberChars.getD (r 2 % 10) 0 ∈ numberChars) = true from decide_eq_true he2,
      show decide (symbolChars.getD (r 3 % 8) 0 ∈ numberChars) = false from
        decide_eq_false (mem_symbol_notin_number _ he3)]
    simp
  have hcs : a1.countP (fun c2 => decide (c2 ∈ symbolChars)) = 1 := by
    rw [ha1]
    simp only [List.range_zero, List.map_nil, List.append_nil, List.countP_cons,
      List.countP_nil]
    rw [show decide (lowercaseChars.getD (r 0 % 26) 0 ∈ symbolChars) = false from
        decide_eq_false (mem_lower_notin_symbol _ he0),
      show decide (uppercaseChars.getD (r 1 % 26) 0 ∈ symbolChars) = false from
        decide_eq_false (mem_upper_notin_symbol _ he1),
      show decide (numberChars.getD (r 2 % 10) 0 ∈ symbolChars) = false from
        decide_eq_false (mem_number_notin_symbol _ he2),
      show decide (symbolChars.getD (r 3 % 8) 0 ∈ symbolChars) = true from decide_eq_true he3]
    simp
  refine ⟨?_, ?_, ?_, ?_, ?_⟩
  · rw [(hfold (fun _ => true)).2, hA1len]
  · rw [(hfold (fun c2 => decide (c2 ∈ lowercaseChars))).1, hcl]
  · rw [(hfold (fun c2 => decide (c2 ∈ uppercaseChars))).1, hcu]
  · rw [(hfold (fun c2 => decide (c2 ∈ numberChars))).1, hcn]
  · rw [(hfold (fun c2 => decide (c2 ∈ symbolChars))).1, hcs]

/-- Witness of the short-length behaviour at the negative length -1,
applying the main theorem and discharging its bound. -/
theorem GeneratePassword_short_length_witness :
    (GeneratePassword (fun _ => 0) (-1)).length = 4 :=
  (GeneratePassword_short_length (fun _ => 0) (-1) (by decide)).1

/-- C9 (implicit): the password stored by `GenerateForSite` comes from the
package-local `core.generatePassword` with length 20, which returns exactly
`length` characters drawn independently from the combined 70-character
alphabet with no per-class guarantee: under the draw sequence constantly 0
the 20-character password contains no digit and no symbol.  When the name is
new and the passphrase check succeeds, the new item stores the encryption of
that very password, and the same plaintext is handed to the clipboard. -/
theorem generatePassword_feeds_GenerateForSite (r : Nat → Nat) (len : Nat)
    (P : CryptoPrims) (nonce : List Nat) (v : List Item)
    (name username gp b : List Nat)
    (hdup : getByNameStore v name = none)
    (hcheck : checkPassword P v gp = Res.ok true)
    (henc : AesGcmEncrypt P gp (generatePassword r 20) nonce = Res.ok b) :
    ((generatePassword r len).length = len) ∧
    (∀ ch ∈ generatePassword r len, ch ∈ coreChars) ∧
    (∀ ch ∈ generatePassword (fun _ => 0) 20, ch ∉ numberChars ∧ ch ∉ symbolChars) ∧
    GenerateForSite P r nonce v name username gp =
      Res.ok (v ++ [Item.mk name [Credential.mk username b]],
        some (generatePassword r 20)) := by
  refine ⟨?_, ?_, ?_, ?_⟩
  · simp [generatePassword]
  · intro ch hch
    simp only [generatePassword, List.mem_map] at hch
    obtain ⟨i, _, hchi⟩ := hch
    rw [← hchi]
    exact getD_mem_of_lt _ _ (Nat.mod_lt _ (by decide))
  · decide
  · simp only [GenerateForSite, hdup, hcheck, henc, generateForSiteStore, addItemStore]
    simp

set_option maxRecDepth 1000000 in
/-- Witness of the stored-password theorem at concrete inputs: an empty
vault, the draw sequence constantly 0 (generating twenty capital letter A
characters) and the zero nonce. -/
theorem generatePassword_feeds_GenerateForSite_witness :
    GenerateForSite trivPrims (fun _ => 0) (List.replicate 12 0) [] [110] [117] [112] =
      Res.ok ([Item.mk [110] [Credential.mk [117]
        [65, 65, 65, 65, 65, 65, 65, 65, 65, 65, 65, 65, 65, 65, 65, 65,
         81, 85, 70, 66, 81, 85, 70, 66, 81, 85, 70, 66, 81, 85, 70, 66,
         81, 85, 70, 66, 81, 85, 70, 66, 81, 85, 69, 65, 65, 65, 65, 65,
         65, 65, 65, 65, 65, 65, 65, 65, 65, 65, 65, 65, 65, 65, 65, 65]]],
        some (generatePassword (fun _ => 0) 20)) := by
  have h := (generatePassword_feeds_GenerateForSite (fun _ => 0) 0 trivPrims
      (List.replicate 12 0) [] [110] [117] [112]
      [65, 65, 65, 65, 65, 65, 65, 65, 65, 65, 65, 65, 65, 65, 65, 65,
       81, 85, 70, 66, 81, 85, 70, 66, 81, 85, 70, 66, 81, 85, 70, 66,
       81, 85, 70, 66, 81, 85, 70, 66, 81, 85, 69, 65, 65, 65, 65, 65,
       65, 65, 65, 65, 65, 65, 65, 65, 65, 65, 65, 65, 65, 65, 65, 65]
      rfl rfl (by decide)).2.2.2
  simpa using h
